import Mathlib

/-!
URI validation and decomposition in `gedit/gedit-utils.c`.

A shallow embedding of `has_valid_scheme`, `gedit_utils_is_valid_location`,
`make_canonical_uri_from_shell_arg`, `gedit_utils_drop_get_uris` and
`gedit_utils_decode_uri`, followed by theorems about them.

Conventions of the embedding.

* A C string is the list of its bytes before the terminating NUL, each byte a
  natural number.  Reading `*p` at offset `p` is `uri.getD p 0`: at offset
  `uri.length` the read yields the terminator `0`.
* A pointer into a string is an offset; the loops recurse on the bytes that
  remain at the pointer and carry the offset along.
* An out-parameter that is `NULL` on return is `none`, one that is not `NULL` is
  `some`; the five out-parameters together are the record `UriComponents`.
  Whether the caller passed a non-`NULL` pointer for a field is a boolean of
  `Requested`.
-/

namespace GeditUtils

/-- The bytes of a string literal, used to write inputs readably. -/
def bytes (s : String) : List Nat := s.toList.map Char.toNat

/-! ## GLib character classes (`g_ascii_*`) -/

/-- GLib `g_ascii_isdigit`: `0`..`9`. -/
def g_ascii_isdigit (c : Nat) : Bool := decide (48 ≤ c) && decide (c ≤ 57)

/-- GLib `g_ascii_isalpha`: `A`..`Z` or `a`..`z`. -/
def g_ascii_isalpha (c : Nat) : Bool :=
  (decide (65 ≤ c) && decide (c ≤ 90)) || (decide (97 ≤ c) && decide (c ≤ 122))

/-- GLib `g_ascii_isalnum`. -/
def g_ascii_isalnum (c : Nat) : Bool := g_ascii_isalpha c || g_ascii_isdigit c

/-- GLib `g_ascii_isxdigit`: `0`..`9`, `A`..`F`, `a`..`f`. -/
def g_ascii_isxdigit (c : Nat) : Bool :=
  g_ascii_isdigit c || (decide (65 ≤ c) && decide (c ≤ 70)) || (decide (97 ≤ c) && decide (c ≤ 102))

/-- GLib `g_ascii_tolower`: upper-case ASCII letters are shifted, every other byte is kept. -/
def g_ascii_tolower (c : Nat) : Nat := if 65 ≤ c ∧ c ≤ 90 then c + 32 else c

/-- GLib `g_ascii_xdigit_value`; the C result `-1` is `none`. -/
def g_ascii_xdigit_value (c : Nat) : Option Nat :=
  if 48 ≤ c ∧ c ≤ 57 then some (c - 48)
  else if 65 ≤ c ∧ c ≤ 70 then some (c - 55)
  else if 97 ≤ c ∧ c ≤ 102 then some (c - 87)
  else none

/-! ## GLib `g_uri_unescape_segment` -/

/-- GLib's static `unescape_character`: the value of two hex digits, `none` for the C result `-1`. -/
def unescape_character (h l : Nat) : Option Nat :=
  match g_ascii_xdigit_value h, g_ascii_xdigit_value l with
  | some a, some b => some (16 * a + b)
  | _, _ => none

/-- Modelled from the spec: `g_uri_unescape_segment` belongs to GLib and is not among the
sources of this repository.  The spec (sections 4.3 and 7) describes it as a percent-unescape
routine taking a set of bytes that must not come out of an escape, failing on a `%` that is not
followed by two hex digits.  The model follows GLib's documented behaviour: the segment is
copied byte by byte, `%XY` is replaced by the byte with hex value `XY`, and the result is `NULL`
(`none`) when fewer than two bytes follow a `%`, when they are not hex digits, when the escaped
byte is NUL, or when it is one of `illegal_characters` (`none` for a `NULL` set). -/
def g_uri_unescape_segment (illegal_characters : Option (List Nat)) : List Nat → Option (List Nat)
  | [] => some []
  | c :: rest =>
    if c = 37 then
      match rest with
      | h :: l :: rest2 =>
        match unescape_character h l with
        | none => none
        | some character =>
          if character = 0 ∨ character ∈ illegal_characters.getD [] then none
          else (g_uri_unescape_segment illegal_characters rest2).map (fun out => character :: out)
      | _ => none
    else (g_uri_unescape_segment illegal_characters rest).map (fun out => c :: out)

/-- C `memchr (s, c, n)`: the offset from `s` of the first byte equal to `c` among the first
`n` bytes, `none` for `NULL`. -/
def memchr : List Nat → Nat → Nat → Option Nat
  | _, _, 0 => none
  | [], _, _ + 1 => none
  | b :: s, c, n + 1 => if b = c then some 0 else (memchr s c n).map (fun i => i + 1)

/-! ## `has_valid_scheme` and `gedit_utils_is_valid_location` -/

/-- Source `is_valid_scheme_character`. -/
def is_valid_scheme_character (c : Nat) : Bool :=
  g_ascii_isalnum c || c == 43 || c == 45 || c == 46

/-- The loop `do p++ while (is_valid_scheme_character (*p))` of `has_valid_scheme`, after its
first `p++`: given the bytes at `p` and the offset `p`, the offset at which the loop stops. -/
def scheme_run : List Nat → Nat → Nat
  | [], p => p
  | c :: rest, p => if is_valid_scheme_character c then scheme_run rest (p + 1) else p

/-- The offset `p` at which `has_valid_scheme` stops scanning (`0` when the first byte is
rejected). -/
def has_valid_scheme_stop (uri : List Nat) : Nat :=
  if !is_valid_scheme_character (uri.getD 0 0) then 0 else scheme_run (uri.drop 1) 1

/-- Source `has_valid_scheme`. -/
def has_valid_scheme (uri : List Nat) : Bool :=
  if !is_valid_scheme_character (uri.getD 0 0) then false
  else uri.getD (has_valid_scheme_stop uri) 0 == 58

/-- The `for (p = uri; *p; p++)` loop of `gedit_utils_is_valid_location` on the bytes at `p`;
the result is the final `is_valid`. -/
def location_scan : List Nat → Bool
  | [] => true
  | c :: rest =>
    if c = 37 then
      match rest with
      | [] => false
      | h :: rest1 =>
        if !g_ascii_isxdigit h then false
        else
          match rest1 with
          | [] => false
          | l :: rest2 => if !g_ascii_isxdigit l then false else location_scan rest2
    else if c ≤ 32 ∨ c ≥ 128 then false
    else location_scan rest

/-- The same loop of `gedit_utils_is_valid_location`, followed for its pointer: given the bytes
at `p` and the offset `p`, the offset of the last byte read, where the loop ends or breaks. -/
def location_scan_stop : List Nat → Nat → Nat
  | [], p => p
  | c :: rest, p =>
    if c = 37 then
      match rest with
      | [] => p + 1
      | h :: rest1 =>
        if !g_ascii_isxdigit h then p + 1
        else
          match rest1 with
          | [] => p + 2
          | l :: rest2 =>
            if !g_ascii_isxdigit l then p + 2 else location_scan_stop rest2 (p + 3)
    else if c ≤ 32 ∨ c ≥ 128 then p
    else location_scan_stop rest (p + 1)

/-- Source `gedit_utils_is_valid_location`.  A `GFile` is represented by the URI that
`g_file_get_uri` gives for it, `none` being the `NULL` location. -/
def gedit_utils_is_valid_location (location : Option (List Nat)) : Bool :=
  match location with
  | none => false
  | some uri => if !has_valid_scheme uri then false else location_scan uri

/-! ## `gedit_utils_drop_get_uris` -/

/-- Source `make_canonical_uri_from_shell_arg`.  The parameter `commandline_arg_uri` stands for
GIO's `g_file_get_uri (g_file_new_for_commandline_arg (str))`. -/
def make_canonical_uri_from_shell_arg (commandline_arg_uri : List Nat → List Nat)
    (str : List Nat) : Option (List Nat) :=
  if str = [] then none
  else if gedit_utils_is_valid_location (some (commandline_arg_uri str)) then
    some (commandline_arg_uri str)
  else none

/-- The `for (i = 0; uris[i] != NULL; i++)` loop of `gedit_utils_drop_get_uris`: the entries
still to visit and the part of `uri_list` filled so far. -/
def drop_get_uris_loop (commandline_arg_uri : List Nat → List Nat) :
    List (List Nat) → List (List Nat) → List (List Nat)
  | [], uri_list => uri_list
  | str :: rest, uri_list =>
    match make_canonical_uri_from_shell_arg commandline_arg_uri str with
    | some uri => drop_get_uris_loop commandline_arg_uri rest (uri_list ++ [uri])
    | none => drop_get_uris_loop commandline_arg_uri rest uri_list

/-- Source `gedit_utils_drop_get_uris`, on the entries that `g_uri_list_extract_uris` has
extracted from the selection data. -/
def gedit_utils_drop_get_uris (commandline_arg_uri : List Nat → List Nat)
    (uris : List (List Nat)) : Option (List (List Nat)) :=
  match drop_get_uris_loop commandline_arg_uri uris [] with
  | [] => none
  | uri :: uri_list => some (uri :: uri_list)

/-! ## `gedit_utils_decode_uri` -/

/-- The five out-parameters of `gedit_utils_decode_uri` on return. -/
structure UriComponents where
  scheme : Option (List Nat)
  user : Option (List Nat)
  host : Option (List Nat)
  port : Option (List Nat)
  path : Option (List Nat)
  deriving DecidableEq, Repr

/-- Which of the five out-pointers the caller passed non-`NULL`. -/
structure Requested where
  scheme : Bool
  user : Bool
  host : Bool
  port : Bool
  path : Bool
  deriving DecidableEq, Repr

/-- All out-parameters `NULL`. -/
def no_components : UriComponents := ⟨none, none, none, none, none⟩

/-- Every field requested. -/
def all_requested : Requested := ⟨true, true, true, true, true⟩

/-- The `while (1)` scheme loop of `gedit_utils_decode_uri`: given the bytes at `p` and the
offset `p`, the offset just past the `:` on `break`, `none` on `return FALSE`. -/
def scheme_scan : List Nat → Nat → Option Nat
  | [], _ => none
  | c :: rest, p =>
    if c = 58 then some (p + 1)
    else if !(g_ascii_isalnum c || c == 43 || c == 45 || c == 46) then none
    else scheme_scan rest (p + 1)

/-- The scheme step of `gedit_utils_decode_uri` (source lines 874-891): the offset `p` of
`hier_part_start`, or `none` when the function returns `FALSE` there. -/
def decode_scheme_step (uri : List Nat) : Option Nat :=
  if !g_ascii_isalpha (uri.getD 0 0) then none else scheme_scan uri 0

/-- The authority and path steps of `gedit_utils_decode_uri` (source lines 906-975), given the
bytes at `hier_part_start` and the scheme already stored.  Offsets are relative to
`authority_start`.  On the `return FALSE` after a failed userinfo unescape the source calls
`g_free (*scheme)` and leaves the pointer in `*scheme`: the out-parameter keeps the value
stored before, not `NULL` when the scheme was requested, although its buffer is released. -/
def decode_hier_part (hier_part : List Nat) (scheme : Option (List Nat)) (want : Requested) :
    Bool × UriComponents :=
  if hier_part.getD 0 0 = 47 ∧ hier_part.getD 1 0 = 47 then
    let authority_start := hier_part.drop 2
    let authority_end :=
      (memchr authority_start 47 authority_start.length).getD authority_start.length
    let userinfo_end := memchr authority_start 64 authority_end
    let user :=
      match userinfo_end with
      | some e => if want.user then g_uri_unescape_segment none (authority_start.take e) else none
      | none => none
    if userinfo_end.isSome && want.user && user.isNone then
      (false, ⟨scheme, none, none, none, none⟩)
    else
      let host_start := match userinfo_end with
        | some e => e + 1
        | none => 0
      let port_start :=
        (memchr (authority_start.drop host_start) 58 (authority_end - host_start)).map
          (fun i => host_start + i)
      let host_end := port_start.getD authority_end
      let port :=
        match port_start with
        | some q =>
          if want.port then some ((authority_start.drop (q + 1)).take (authority_end - (q + 1)))
          else none
        | none => none
      let host :=
        if want.host then some ((authority_start.drop host_start).take (host_end - host_start))
        else none
      let path :=
        if want.path then g_uri_unescape_segment (some [47]) (authority_start.drop authority_end)
        else none
      (true, ⟨scheme, user, host, port, path⟩)
  else
    (true, ⟨scheme, none, none, none,
      if want.path then g_uri_unescape_segment (some [47]) hier_part else none⟩)

/-- Source `gedit_utils_decode_uri`: the returned `gboolean` and the out-parameters.  The
returns in the scheme step come right after `null_ptr` has cleared all five. -/
def gedit_utils_decode_uri (uri : List Nat) (want : Requested) : Bool × UriComponents :=
  match decode_scheme_step uri with
  | none => (false, no_components)
  | some p =>
    decode_hier_part (uri.drop p)
      (if want.scheme then some ((uri.take (p - 1)).map g_ascii_tolower) else none) want

/-! ## Vocabulary of the statements -/

/-- The bytes of `s` before the first occurrence of `c` (all of `s` when `c` does not occur). -/
def before_first (c : Nat) (s : List Nat) : List Nat := s.takeWhile (fun b => b != c)

/-- The bytes of `s` after the first occurrence of `c` (empty when `c` does not occur). -/
def after_first (c : Nat) (s : List Nat) : List Nat := (s.dropWhile (fun b => b != c)).drop 1

/-- The bytes of `s` from the first occurrence of `c` on (empty when `c` does not occur). -/
def from_first (c : Nat) (s : List Nat) : List Nat := s.dropWhile (fun b => b != c)

/-- The part of an authority block `A` that holds host and port: what follows the first `@`,
or all of `A` when it has no `@`. -/
def host_port_part (A : List Nat) : List Nat := if 64 ∈ A then after_first 64 A else A

/-- The byte strings the location check is said to accept, with `hi` the exclusive upper bound
on a plain byte: a sequence of items, each either `%` followed by two hex digits or a single
byte other than `%` in the range `33 ≤ b < hi`. -/
inductive ValidLocationBytes (hi : Nat) : List Nat → Prop
  | nil : ValidLocationBytes hi []
  | escape (c h l : Nat) (rest : List Nat) :
      c = 37 → g_ascii_isxdigit h = true → g_ascii_isxdigit l = true →
      ValidLocationBytes hi rest → ValidLocationBytes hi (c :: h :: l :: rest)
  | byte (b : Nat) (rest : List Nat) :
      b ≠ 37 → 33 ≤ b → b < hi → ValidLocationBytes hi rest → ValidLocationBytes hi (b :: rest)

/-- The canonical URIs of the non-empty entries of `uris`, in input order, that pass
`gedit_utils_is_valid_location`. -/
def valid_canonical_uris (commandline_arg_uri : List Nat → List Nat)
    (uris : List (List Nat)) : List (List Nat) :=
  ((uris.filter (fun e => !e.isEmpty)).map commandline_arg_uri).filter
    (fun u => gedit_utils_is_valid_location (some u))

/-! ## Lemmas on `before_first`, `after_first` and `memchr` -/

theorem before_first_nil (c : Nat) : before_first c [] = [] := rfl

theorem before_first_cons_eq (c : Nat) (s : List Nat) : before_first c (c :: s) = [] := by
  simp [before_first]

theorem before_first_cons_ne {b c : Nat} (h : b ≠ c) (s : List Nat) :
    before_first c (b :: s) = b :: before_first c s := by
  simp [before_first, List.takeWhile_cons, h]

theorem after_first_cons_eq (c : Nat) (s : List Nat) : after_first c (c :: s) = s := by
  simp [after_first]

theorem after_first_cons_ne {b c : Nat} (h : b ≠ c) (s : List Nat) :
    after_first c (b :: s) = after_first c s := by
  simp [after_first, List.dropWhile_cons, h]

theorem not_mem_before_first (c : Nat) (s : List Nat) : c ∉ before_first c s := by
  induction s with
  | nil => simp [before_first]
  | cons b s ih =>
    by_cases h : b = c
    · subst h; simp [before_first_cons_eq]
    · rw [before_first_cons_ne h]
      simp only [List.mem_cons, not_or]
      exact ⟨fun e => h e.symm, ih⟩

theorem before_first_of_not_mem {c : Nat} {s : List Nat} (h : c ∉ s) : before_first c s = s := by
  induction s with
  | nil => rfl
  | cons b s ih =>
    simp only [List.mem_cons, not_or] at h
    rw [before_first_cons_ne (fun e => h.1 e.symm), ih h.2]

theorem split_at_first {c : Nat} {s : List Nat} (h : c ∈ s) :
    s = before_first c s ++ c :: after_first c s := by
  induction s with
  | nil => simp at h
  | cons b s ih =>
    by_cases hb : b = c
    · subst hb; simp [before_first_cons_eq, after_first_cons_eq]
    · have hs : c ∈ s := by
        rcases List.mem_cons.1 h with e | e
        · exact absurd e.symm hb
        · exact e
      rw [before_first_cons_ne hb, after_first_cons_ne hb, List.cons_append, ← ih hs]

theorem before_first_append_cons {c : Nat} {u : List Nat} (h : c ∉ u) (v : List Nat) :
    before_first c (u ++ c :: v) = u := by
  induction u with
  | nil => simp [before_first_cons_eq]
  | cons b u ih =>
    simp only [List.mem_cons, not_or] at h
    rw [List.cons_append, before_first_cons_ne (fun e => h.1 e.symm), ih h.2]

theorem after_first_append_cons {c : Nat} {u : List Nat} (h : c ∉ u) (v : List Nat) :
    after_first c (u ++ c :: v) = v := by
  induction u with
  | nil => simp [after_first_cons_eq]
  | cons b u ih =>
    simp only [List.mem_cons, not_or] at h
    rw [List.cons_append, after_first_cons_ne (fun e => h.1 e.symm), ih h.2]

theorem take_length_before_first (c : Nat) (s : List Nat) :
    s.take (before_first c s).length = before_first c s := by
  induction s with
  | nil => rfl
  | cons b s ih =>
    by_cases hb : b = c
    · subst hb; simp [before_first_cons_eq]
    · rw [before_first_cons_ne hb]; simp [ih]

theorem drop_length_before_first_succ (c : Nat) (s : List Nat) :
    s.drop ((before_first c s).length + 1) = after_first c s := by
  induction s with
  | nil => rfl
  | cons b s ih =>
    by_cases hb : b = c
    · subst hb; simp [before_first_cons_eq, after_first_cons_eq]
    · rw [before_first_cons_ne hb, after_first_cons_ne hb]; simpa using ih

theorem length_before_first_le (c : Nat) (s : List Nat) :
    (before_first c s).length ≤ s.length := by
  unfold before_first
  exact (List.takeWhile_sublist _).length_le

theorem memchr_eq (c : Nat) (s : List Nat) (n : Nat) :
    memchr s c n =
      if c ∈ s.take n then some (before_first c (s.take n)).length else none := by
  induction s generalizing n with
  | nil => cases n <;> simp [memchr]
  | cons b s ih =>
    cases n with
    | zero => simp [memchr]
    | succ n =>
      by_cases hb : b = c
      · subst hb; simp [memchr, before_first_cons_eq]
      · have hb2 : ¬ c = b := fun e => hb e.symm
        simp only [memchr, hb, if_false, ih, List.take_succ_cons, List.mem_cons, hb2, false_or,
          before_first_cons_ne hb, List.length_cons]
        split <;> simp

theorem scheme_scan_cons (c : Nat) (s : List Nat) (p : Nat) :
    scheme_scan (c :: s) p =
      if c = 58 then some (p + 1)
      else if is_valid_scheme_character c = true then scheme_scan s (p + 1) else none := by
  by_cases hc : c = 58
  · simp [scheme_scan, hc]
  · cases hv : is_valid_scheme_character c <;>
      simp [scheme_scan, hc, hv, show (g_ascii_isalnum c || c == 43 || c == 45 || c == 46) = _ from hv]

theorem scheme_scan_eq (s : List Nat) (p : Nat) :
    scheme_scan s p =
      if 58 ∈ s ∧ ∀ b ∈ before_first 58 s, is_valid_scheme_character b = true then
        some (p + (before_first 58 s).length + 1)
      else none := by
  induction s generalizing p with
  | nil => simp [scheme_scan]
  | cons c s ih =>
    rw [scheme_scan_cons]
    by_cases hc : c = 58
    · subst hc; simp [before_first_cons_eq]
    · have hc2 : ¬ 58 = c := fun e => hc e.symm
      rw [if_neg hc, before_first_cons_ne hc]
      by_cases hv : is_valid_scheme_character c = true
      · rw [if_pos hv, ih]
        by_cases hs : 58 ∈ s ∧ ∀ b ∈ before_first 58 s, is_valid_scheme_character b = true
        · have hs2 : 58 ∈ c :: s ∧
              ∀ b ∈ c :: before_first 58 s, is_valid_scheme_character b = true :=
            ⟨List.mem_cons_of_mem _ hs.1, fun b hb => by
              rcases List.mem_cons.1 hb with e | e
              · rw [e]; exact hv
              · exact hs.2 b e⟩
          rw [if_pos hs, if_pos hs2, List.length_cons]
          congr 1
          omega
        · have hs2 : ¬ (58 ∈ c :: s ∧
              ∀ b ∈ c :: before_first 58 s, is_valid_scheme_character b = true) := by
            rintro ⟨h1, h2⟩
            apply hs
            refine ⟨?_, fun b hb => h2 b (List.mem_cons_of_mem _ hb)⟩
            rcases List.mem_cons.1 h1 with e | e
            · exact absurd e hc2
            · exact e
          rw [if_neg hs, if_neg hs2]
      · have hs2 : ¬ (58 ∈ c :: s ∧
            ∀ b ∈ c :: before_first 58 s, is_valid_scheme_character b = true) := by
          rintro ⟨_, h2⟩
          exact hv (h2 c (List.mem_cons_self _ _))
        rw [if_neg hv, if_neg hs2]

theorem drop_take_span (s : List Nat) (k n : Nat) :
    (s.drop k).take (n - k) = (s.take n).drop k := by
  rw [List.drop_take]

theorem take_of_span {rest A : List Nat} (hA : rest.take A.length = A) {n : Nat}
    (hn : n ≤ A.length) : rest.take n = A.take n := by
  calc rest.take n = (rest.take A.length).take n := by
        rw [List.take_take, Nat.min_eq_left hn]
    _ = A.take n := by rw [hA]

theorem take_before_first_span {rest A : List Nat} (hA : rest.take A.length = A) (c : Nat) :
    rest.take (before_first c A).length = before_first c A := by
  rw [take_of_span hA (length_before_first_le c A), take_length_before_first]

theorem host_span {rest A : List Nat} (hA : rest.take A.length = A) (hs : Nat) :
    List.drop hs (List.take
      ((Option.map (fun i => hs + i)
        (if 58 ∈ List.drop hs A then some (before_first 58 (List.drop hs A)).length
          else none)).getD A.length) rest) = before_first 58 (List.drop hs A) := by
  by_cases h : 58 ∈ List.drop hs A
  · have hle := length_before_first_le 58 (List.drop hs A)
    have hpos : 0 < (List.drop hs A).length := List.length_pos_of_mem h
    rw [List.length_drop] at hle hpos
    have hle2 : hs + (before_first 58 (List.drop hs A)).length ≤ A.length := by omega
    simp only [h, if_true, Option.map_some', Option.getD_some]
    rw [take_of_span hA hle2, List.drop_take, Nat.add_sub_cancel_left, take_length_before_first]
  · simp only [h, if_false, Option.map_none', Option.getD_none, hA]
    exact (before_first_of_not_mem h).symm

theorem port_span (A : List Nat) (hs : Nat) (wp : Bool) :
    (match Option.map (fun i => hs + i)
        (if 58 ∈ List.drop hs A then some (before_first 58 (List.drop hs A)).length
          else none) with
      | some q => if wp = true then some (List.drop (q + 1) A) else none
      | none => none) =
    if 58 ∈ List.drop hs A ∧ wp = true then some (after_first 58 (List.drop hs A)) else none := by
  by_cases h : 58 ∈ List.drop hs A
  · simp only [h, if_true, Option.map_some', true_and]
    rw [← drop_length_before_first_succ, List.drop_drop]
    congr 3
  · simp [h]

theorem decode_hier_part_authority (rest : List Nat) (scheme : Option (List Nat))
    (want : Requested) :
    decode_hier_part (47 :: 47 :: rest) scheme want =
      if 64 ∈ before_first 47 rest ∧ want.user = true ∧
          g_uri_unescape_segment none (before_first 64 (before_first 47 rest)) = none then
        (false, ⟨scheme, none, none, none, none⟩)
      else
        (true,
          ⟨scheme,
            if 64 ∈ before_first 47 rest ∧ want.user = true then
              g_uri_unescape_segment none (before_first 64 (before_first 47 rest))
            else none,
            if want.host = true then
              some (before_first 58 (host_port_part (before_first 47 rest)))
            else none,
            if 58 ∈ host_port_part (before_first 47 rest) ∧ want.port = true then
              some (after_first 58 (host_port_part (before_first 47 rest)))
            else none,
            if want.path = true then
              g_uri_unescape_segment (some [47]) (rest.drop (before_first 47 rest).length)
            else none⟩) := by
  have hae : (memchr rest 47 rest.length).getD rest.length = (before_first 47 rest).length := by
    rw [memchr_eq, List.take_length]
    split
    · simp
    · rename_i h; simp [before_first_of_not_mem h]
  have hA := take_length_before_first 47 rest
  simp only [decode_hier_part, List.getD_cons_zero, List.getD_cons_succ, true_and, if_true,
    List.drop_succ_cons, List.drop_zero, hae]
  simp only [memchr_eq, drop_take_span, take_length_before_first]
  generalize before_first 47 rest = A at hA ⊢
  by_cases h64 : 64 ∈ A
  · simp only [h64, if_true, Option.isSome_some]
    simp only [host_span hA, port_span, take_before_first_span hA]
    simp only [Bool.true_and, true_and, host_port_part, drop_length_before_first_succ, h64,
      if_true]
    cases hu : want.user
    · simp
    · cases hx : g_uri_unescape_segment none (before_first 64 A) <;> simp
  · simp only [h64, if_false, Option.isSome_none, Bool.false_and, false_and, host_port_part]
    have h1 := host_span hA 0
    have h2 := port_span A 0 want.port
    simp only [List.drop_zero] at h1 h2
    simp only [List.drop_zero, h1, h2]
    simp

theorem decode_hier_part_no_authority (hier_part : List Nat) (scheme : Option (List Nat))
    (want : Requested) (h : ¬ (hier_part.getD 0 0 = 47 ∧ hier_part.getD 1 0 = 47)) :
    decode_hier_part hier_part scheme want =
      (true, ⟨scheme, none, none, none,
        if want.path = true then g_uri_unescape_segment (some [47]) hier_part else none⟩) := by
  unfold decode_hier_part
  rw [if_neg h]

theorem hier_part_cases (hier_part : List Nat) :
    (∃ rest, hier_part = 47 :: 47 :: rest) ∨
      ¬ (hier_part.getD 0 0 = 47 ∧ hier_part.getD 1 0 = 47) := by
  rcases hier_part with _ | ⟨a, _ | ⟨b, rest⟩⟩
  · right; simp
  · right; simp
  · by_cases h : a = 47 ∧ b = 47
    · left; exact ⟨rest, by rw [h.1, h.2]⟩
    · right; simpa using h

theorem decode_hier_part_scheme (hier_part : List Nat) (scheme : Option (List Nat))
    (want : Requested) (h : (decode_hier_part hier_part scheme want).1 = true) :
    (decode_hier_part hier_part scheme want).2.scheme = scheme := by
  rcases hier_part_cases hier_part with ⟨rest, rfl⟩ | hn
  · rw [decode_hier_part_authority] at h ⊢
    split at h
    · simp at h
    · rename_i hc; rw [if_neg hc]
  · rw [decode_hier_part_no_authority _ _ _ hn]

theorem is_valid_scheme_character_iff (b : Nat) :
    is_valid_scheme_character b = true ↔
      (g_ascii_isalpha b = true ∨ g_ascii_isdigit b = true ∨ b = 43 ∨ b = 45 ∨ b = 46) := by
  simp [is_valid_scheme_character, g_ascii_isalnum, or_assoc]

theorem decode_scheme_step_eq (uri : List Nat) :
    decode_scheme_step uri =
      if g_ascii_isalpha (uri.getD 0 0) = true ∧ 58 ∈ uri ∧
          ∀ b ∈ before_first 58 uri, is_valid_scheme_character b = true then
        some ((before_first 58 uri).length + 1)
      else none := by
  unfold decode_scheme_step
  rw [scheme_scan_eq]
  cases ha : g_ascii_isalpha (uri.getD 0 0)
  · simp
  · simp

theorem drop_of_scheme_offset (uri : List Nat) :
    uri.drop ((before_first 58 uri).length + 1) = after_first 58 uri :=
  drop_length_before_first_succ 58 uri

theorem before_first_ne_nil_of_alpha {uri : List Nat}
    (h : g_ascii_isalpha (uri.getD 0 0) = true) : before_first 58 uri ≠ [] := by
  cases uri with
  | nil => simp [g_ascii_isalpha] at h
  | cons c s =>
    have hc : c ≠ 58 := by
      rintro rfl
      simp [g_ascii_isalpha] at h
    rw [before_first_cons_ne hc]
    simp

theorem gedit_utils_decode_uri_eq (uri : List Nat) (want : Requested) :
    gedit_utils_decode_uri uri want =
      if g_ascii_isalpha (uri.getD 0 0) = true ∧ 58 ∈ uri ∧
          ∀ b ∈ before_first 58 uri, is_valid_scheme_character b = true then
        decode_hier_part (after_first 58 uri)
          (if want.scheme = true then some ((before_first 58 uri).map g_ascii_tolower) else none)
          want
      else (false, no_components) := by
  unfold gedit_utils_decode_uri
  rw [decode_scheme_step_eq]
  by_cases hc : g_ascii_isalpha (uri.getD 0 0) = true ∧ 58 ∈ uri ∧
      ∀ b ∈ before_first 58 uri, is_valid_scheme_character b = true
  · simp only [if_pos hc, drop_of_scheme_offset, Nat.add_sub_cancel, take_length_before_first]
  · simp only [if_neg hc]

theorem drop_length_before_first (c : Nat) (s : List Nat) :
    s.drop (before_first c s).length = from_first c s := by
  induction s with
  | nil => rfl
  | cons b s ih =>
    by_cases hb : b = c
    · subst hb; simp [before_first_cons_eq, from_first]
    · rw [before_first_cons_ne hb]
      simpa [from_first, List.dropWhile_cons, hb] using ih

theorem decode_uri_of_scheme_step {uri : List Nat} {p : Nat}
    (h : decode_scheme_step uri = some p) (want : Requested) :
    p = (before_first 58 uri).length + 1 ∧
    gedit_utils_decode_uri uri want =
      decode_hier_part (uri.drop p)
        (if want.scheme = true then some ((before_first 58 uri).map g_ascii_tolower) else none)
        want := by
  have hp : p = (before_first 58 uri).length + 1 := by
    rw [decode_scheme_step_eq] at h
    split at h
    · simpa using h.symm
    · simp at h
  refine ⟨hp, ?_⟩
  unfold gedit_utils_decode_uri
  rw [h]
  simp only [hp, Nat.add_sub_cancel, take_length_before_first]

theorem decode_uri_authority_eq {uri : List Nat} {p : Nat} {rest : List Nat}
    (h : decode_scheme_step uri = some p) (hrem : uri.drop p = 47 :: 47 :: rest)
    (want : Requested) :
    gedit_utils_decode_uri uri want =
      if 64 ∈ before_first 47 rest ∧ want.user = true ∧
          g_uri_unescape_segment none (before_first 64 (before_first 47 rest)) = none then
        (false,
          ⟨if want.scheme = true then some ((before_first 58 uri).map g_ascii_tolower) else none,
            none, none, none, none⟩)
      else
        (true,
          ⟨if want.scheme = true then some ((before_first 58 uri).map g_ascii_tolower) else none,
            if 64 ∈ before_first 47 rest ∧ want.user = true then
              g_uri_unescape_segment none (before_first 64 (before_first 47 rest))
            else none,
            if want.host = true then
              some (before_first 58 (host_port_part (before_first 47 rest)))
            else none,
            if 58 ∈ host_port_part (before_first 47 rest) ∧ want.port = true then
              some (after_first 58 (host_port_part (before_first 47 rest)))
            else none,
            if want.path = true then
              g_uri_unescape_segment (some [47]) (from_first 47 rest)
            else none⟩) := by
  rw [(decode_uri_of_scheme_step h want).2, hrem, decode_hier_part_authority,
    drop_length_before_first]

theorem unescape_nil (il : Option (List Nat)) : g_uri_unescape_segment il [] = some [] := by
  simp [g_uri_unescape_segment]

theorem unescape_cons_ne (il : Option (List Nat)) {c : Nat} (hc : c ≠ 37) (rest : List Nat) :
    g_uri_unescape_segment il (c :: rest) =
      (g_uri_unescape_segment il rest).map (fun out => c :: out) := by
  conv_lhs => unfold g_uri_unescape_segment
  simp [hc]

theorem unescape_escape (il : Option (List Nat)) (h l : Nat) (rest : List Nat) :
    g_uri_unescape_segment il (37 :: h :: l :: rest) =
      match unescape_character h l with
      | none => none
      | some character =>
        if character = 0 ∨ character ∈ il.getD [] then none
        else (g_uri_unescape_segment il rest).map (fun out => character :: out) := by
  conv_lhs => unfold g_uri_unescape_segment
  simp

theorem unescape_short (il : Option (List Nat)) (rest : List Nat) (h : rest.length < 2) :
    g_uri_unescape_segment il (37 :: rest) = none := by
  rcases rest with _ | ⟨a, _ | ⟨b, r⟩⟩
  · simp [g_uri_unescape_segment]
  · simp [g_uri_unescape_segment]
  · simp only [List.length_cons] at h
    omega

theorem unescape_of_no_percent (il : Option (List Nat)) {seg : List Nat} (h : 37 ∉ seg) :
    g_uri_unescape_segment il seg = some seg := by
  induction seg with
  | nil => exact unescape_nil il
  | cons c seg ih =>
    simp only [List.mem_cons, not_or] at h
    rw [unescape_cons_ne il (fun e => h.1 e.symm), ih h.2]
    rfl

theorem xdigit_value_ne_slash {c v : Nat} (h : g_ascii_xdigit_value c = some v) : c ≠ 47 := by
  rintro rfl
  simp [g_ascii_xdigit_value] at h

theorem unescape_character_ne_slash {h l v : Nat} (hv : unescape_character h l = some v) :
    h ≠ 47 ∧ l ≠ 47 := by
  unfold unescape_character at hv
  cases h1 : g_ascii_xdigit_value h with
  | none => simp [h1] at hv
  | some a =>
    cases h2 : g_ascii_xdigit_value l with
    | none => simp [h1, h2] at hv
    | some b => exact ⟨xdigit_value_ne_slash h1, xdigit_value_ne_slash h2⟩

theorem unescape_count_slash_aux (n : Nat) :
    ∀ seg out : List Nat, seg.length ≤ n → g_uri_unescape_segment (some [47]) seg = some out →
      out.count 47 = seg.count 47 := by
  induction n with
  | zero =>
    intro seg out hlen h
    have : seg = [] := List.length_eq_zero.1 (Nat.le_zero.1 hlen)
    subst this
    rw [unescape_nil] at h
    cases h
    rfl
  | succ n ih =>
    intro seg out hlen h
    rcases seg with _ | ⟨c, rest⟩
    · rw [unescape_nil] at h
      cases h
      rfl
    · by_cases hc : c = 37
      · subst hc
        rcases rest with _ | ⟨a, _ | ⟨b, r⟩⟩
        · rw [unescape_short _ _ (by simp)] at h; cases h
        · rw [unescape_short _ _ (by simp)] at h; cases h
        · rw [unescape_escape] at h
          cases hu : unescape_character a b with
          | none => simp [hu] at h
          | some ch =>
            simp only [hu, Option.getD_some, List.mem_singleton] at h
            split at h
            · cases h
            · rename_i hne
              simp only [not_or] at hne
              cases hr : g_uri_unescape_segment (some [47]) r with
              | none => simp [hr] at h
              | some o =>
                simp only [hr, Option.map_some', Option.some.injEq] at h
                subst h
                have hlen2 : r.length ≤ n := by simp at hlen; omega
                have e := ih r o hlen2 hr
                have hs := unescape_character_ne_slash hu
                rw [List.count_cons_of_ne (Ne.symm hne.2), e,
                  List.count_cons_of_ne (by decide : (47 : Nat) ≠ 37),
                  List.count_cons_of_ne (Ne.symm hs.1), List.count_cons_of_ne (Ne.symm hs.2)]
      · rw [unescape_cons_ne _ hc] at h
        cases hr : g_uri_unescape_segment (some [47]) rest with
        | none => simp [hr] at h
        | some o =>
          simp only [hr, Option.map_some', Option.some.injEq] at h
          subst h
          have hlen2 : rest.length ≤ n := by simpa using hlen
          have e := ih rest o hlen2 hr
          simp only [List.count_cons, e]

theorem scheme_run_eq (s : List Nat) (p : Nat) :
    scheme_run s p = p + (s.takeWhile is_valid_scheme_character).length := by
  induction s generalizing p with
  | nil => simp [scheme_run]
  | cons c s ih =>
    cases hv : is_valid_scheme_character c
    · simp [scheme_run, hv, List.takeWhile_cons]
    · simp only [scheme_run, hv, if_true, ih, List.takeWhile_cons, List.length_cons]
      omega

theorem has_valid_scheme_stop_eq (uri : List Nat) :
    has_valid_scheme_stop uri = (uri.takeWhile is_valid_scheme_character).length := by
  unfold has_valid_scheme_stop
  cases uri with
  | nil => simp [is_valid_scheme_character, g_ascii_isalnum, g_ascii_isalpha, g_ascii_isdigit]
  | cons c s =>
    cases hv : is_valid_scheme_character c
    · simp [hv, List.takeWhile_cons]
    · simp only [List.getD_cons_zero, hv, Bool.not_true, List.drop_succ_cons, List.drop_zero,
        scheme_run_eq, List.takeWhile_cons, if_true, List.length_cons]
      simp only [Bool.false_eq_true, if_false]
      omega

theorem getD_length_takeWhile (q : Nat → Bool) (l : List Nat) :
    l.getD (l.takeWhile q).length 0 = (l.dropWhile q).headD 0 := by
  induction l with
  | nil => rfl
  | cons c s ih =>
    cases hq : q c
    · simp [List.takeWhile_cons, List.dropWhile_cons, hq]
    · simpa [List.takeWhile_cons, List.dropWhile_cons, hq] using ih

theorem has_valid_scheme_eq (uri : List Nat) :
    has_valid_scheme uri =
      (is_valid_scheme_character (uri.getD 0 0) &&
        (uri.dropWhile is_valid_scheme_character).headD 0 == 58) := by
  unfold has_valid_scheme
  rw [has_valid_scheme_stop_eq, getD_length_takeWhile]
  cases is_valid_scheme_character (uri.getD 0 0) <;> simp

theorem not_valid_scheme_character_colon : is_valid_scheme_character 58 = false := by decide

theorem not_valid_scheme_character_zero : is_valid_scheme_character 0 = false := by decide

theorem has_valid_scheme_iff_run (uri : List Nat) :
    has_valid_scheme uri = true ↔
      ∃ pre rest, pre ≠ [] ∧ (∀ b ∈ pre, is_valid_scheme_character b = true) ∧
        uri = pre ++ 58 :: rest := by
  rw [has_valid_scheme_eq]
  constructor
  · intro h
    simp only [Bool.and_eq_true, beq_iff_eq] at h
    obtain ⟨h1, h2⟩ := h
    have hsplit := List.takeWhile_append_dropWhile is_valid_scheme_character uri
    refine ⟨uri.takeWhile is_valid_scheme_character,
      (uri.dropWhile is_valid_scheme_character).tail, ?_, ?_, ?_⟩
    · cases uri with
      | nil => simp [not_valid_scheme_character_zero] at h1
      | cons c s =>
        simp only [List.getD_cons_zero] at h1
        simp [List.takeWhile_cons, h1]
    · intro b hb
      exact (List.mem_takeWhile_imp hb)
    · cases hd : uri.dropWhile is_valid_scheme_character with
      | nil => simp [hd] at h2
      | cons d ds =>
        simp only [hd, List.headD_cons] at h2
        subst h2
        rw [hd] at hsplit
        simpa using hsplit.symm
  · rintro ⟨pre, rest, hne, hall, rfl⟩
    have hdrop : (pre ++ 58 :: rest).dropWhile is_valid_scheme_character = 58 :: rest := by
      rw [List.dropWhile_append_of_pos hall]
      simp [List.dropWhile_cons, not_valid_scheme_character_colon]
    rw [hdrop]
    cases pre with
    | nil => exact absurd rfl hne
    | cons c s =>
      simp only [List.cons_append, List.getD_cons_zero, List.headD_cons, beq_self_eq_true,
        Bool.and_true]
      exact hall c (List.mem_cons_self _ _)

theorem location_scan_percent (h l : Nat) (rest : List Nat) :
    location_scan (37 :: h :: l :: rest) =
      (g_ascii_isxdigit h && g_ascii_isxdigit l && location_scan rest) := by
  conv_lhs => unfold location_scan
  cases hh : g_ascii_isxdigit h <;> cases hl : g_ascii_isxdigit l <;> simp [hh, hl]

theorem location_scan_percent_short (rest : List Nat) (h : rest.length < 2) :
    location_scan (37 :: rest) = false := by
  rcases rest with _ | ⟨a, _ | ⟨b, r⟩⟩
  · simp [location_scan]
  · simp [location_scan]
  · simp only [List.length_cons] at h
    omega

theorem location_scan_byte {c : Nat} (hc : c ≠ 37) (rest : List Nat) :
    location_scan (c :: rest) = (decide (33 ≤ c) && decide (c < 128) && location_scan rest) := by
  conv_lhs => unfold location_scan
  by_cases h1 : c ≤ 32
  · have h2 : ¬ 33 ≤ c := by omega
    simp [hc, h1, h2]
  · by_cases h3 : c ≥ 128
    · have h4 : ¬ c < 128 := by omega
      simp [hc, h3, h4]
    · have h2 : 33 ≤ c := by omega
      have h4 : c < 128 := by omega
      simp [hc, h1, h3, h2, h4]

theorem location_scan_of_valid {s : List Nat} (h : ValidLocationBytes 128 s) :
    location_scan s = true := by
  induction h with
  | nil => simp [location_scan]
  | escape c h l rest hc hh hl _ ih =>
    subst hc
    rw [location_scan_percent, hh, hl, ih]
    rfl
  | byte b rest hb h1 h2 _ ih =>
    rw [location_scan_byte hb, ih]
    simp [h1, h2]

theorem valid_of_location_scan_aux (n : Nat) :
    ∀ s : List Nat, s.length ≤ n → location_scan s = true → ValidLocationBytes 128 s := by
  induction n with
  | zero =>
    intro s hlen _
    have : s = [] := List.length_eq_zero.1 (Nat.le_zero.1 hlen)
    subst this
    exact ValidLocationBytes.nil
  | succ n ih =>
    intro s hlen h
    rcases s with _ | ⟨c, rest⟩
    · exact ValidLocationBytes.nil
    · by_cases hc : c = 37
      · subst hc
        rcases rest with _ | ⟨a, _ | ⟨b, r⟩⟩
        · rw [location_scan_percent_short _ (by simp)] at h; cases h
        · rw [location_scan_percent_short _ (by simp)] at h; cases h
        · rw [location_scan_percent] at h
          simp only [Bool.and_eq_true] at h
          have hlen2 : r.length ≤ n := by simp at hlen; omega
          exact ValidLocationBytes.escape 37 a b r rfl h.1.1 h.1.2 (ih r hlen2 h.2)
      · rw [location_scan_byte hc] at h
        simp only [Bool.and_eq_true, decide_eq_true_eq] at h
        have hlen2 : rest.length ≤ n := by simpa using hlen
        exact ValidLocationBytes.byte c rest hc h.1.1 h.1.2 (ih rest hlen2 h.2)

theorem location_scan_iff (s : List Nat) :
    location_scan s = true ↔ ValidLocationBytes 128 s :=
  ⟨valid_of_location_scan_aux s.length s (Nat.le_refl _), location_scan_of_valid⟩

theorem drop_get_uris_loop_eq (canon : List Nat → List Nat) (uris acc : List (List Nat)) :
    drop_get_uris_loop canon uris acc =
      acc ++ uris.filterMap (make_canonical_uri_from_shell_arg canon) := by
  induction uris generalizing acc with
  | nil => simp [drop_get_uris_loop]
  | cons e rest ih =>
    cases h : make_canonical_uri_from_shell_arg canon e with
    | none => simp [drop_get_uris_loop, h, ih, List.filterMap_cons]
    | some u => simp [drop_get_uris_loop, h, ih, List.filterMap_cons]

theorem filterMap_make_canonical (canon : List Nat → List Nat) (uris : List (List Nat)) :
    uris.filterMap (make_canonical_uri_from_shell_arg canon) =
      valid_canonical_uris canon uris := by
  unfold valid_canonical_uris
  induction uris with
  | nil => rfl
  | cons e rest ih =>
    rw [List.filterMap_cons]
    by_cases he : e = []
    · subst he
      simpa [make_canonical_uri_from_shell_arg] using ih
    · have he2 : (!e.isEmpty) = true := by
        cases e with
        | nil => exact absurd rfl he
        | cons a l => rfl
      cases hv : gedit_utils_is_valid_location (some (canon e))
      · simp only [make_canonical_uri_from_shell_arg, he, if_false, hv, ih,
          List.filter_cons, he2, if_true, List.map_cons, Bool.false_eq_true]
      · simp only [make_canonical_uri_from_shell_arg, he, if_false, hv, ih,
          List.filter_cons, he2, if_true, List.map_cons]

theorem gedit_utils_drop_get_uris_eq (canon : List Nat → List Nat) (uris : List (List Nat)) :
    gedit_utils_drop_get_uris canon uris =
      if valid_canonical_uris canon uris = [] then none
      else some (valid_canonical_uris canon uris) := by
  unfold gedit_utils_drop_get_uris
  rw [drop_get_uris_loop_eq, List.nil_append, filterMap_make_canonical]
  cases valid_canonical_uris canon uris <;> simp

theorem valid_canonical_uris_sublist (canon : List Nat → List Nat) (uris : List (List Nat)) :
    (valid_canonical_uris canon uris).Sublist (uris.map canon) :=
  (List.filter_sublist _).trans ((List.filter_sublist _).map canon)

theorem valid_canonical_uris_eq_nil_iff (canon : List Nat → List Nat)
    (uris : List (List Nat)) :
    valid_canonical_uris canon uris = [] ↔
      ∀ e ∈ uris, e = [] ∨ gedit_utils_is_valid_location (some (canon e)) = false := by
  unfold valid_canonical_uris
  rw [List.filter_eq_nil_iff]
  constructor
  · intro h e he
    by_cases hn : e = []
    · exact Or.inl hn
    · right
      have hmem : canon e ∈ (uris.filter (fun e => !e.isEmpty)).map canon := by
        refine List.mem_map.2 ⟨e, List.mem_filter.2 ⟨he, ?_⟩, rfl⟩
        cases e with
        | nil => exact absurd rfl hn
        | cons a l => rfl
      simpa using h _ hmem
  · intro h u hu
    obtain ⟨e, he, rfl⟩ := List.mem_map.1 hu
    obtain ⟨he1, he2⟩ := List.mem_filter.1 he
    rcases h e he1 with hn | hv
    · subst hn; simp at he2
    · simp [hv]

/-! ## The claims -/

/-- C1: the scheme step of `gedit_utils_decode_uri` is passed exactly when the first byte is an
ASCII letter, the string contains `:` and every byte before the first `:` is a letter, a digit,
`+`, `-` or `.`; when the step is not passed the decode fails with no component, in particular
on every string without `:`; when it is passed the offset handed on is just past the first `:`
and the rest of the decode runs on the bytes after it; and a successful decode with the scheme
requested returns the bytes before the first `:` lower-cased, of the same length and non-empty. -/
theorem decode_uri_scheme_scanning (uri : List Nat) :
    ((∃ p, decode_scheme_step uri = some p) ↔
      (g_ascii_isalpha (uri.getD 0 0) = true ∧ 58 ∈ uri ∧
        ∀ b ∈ before_first 58 uri,
          g_ascii_isalpha b = true ∨ g_ascii_isdigit b = true ∨ b = 43 ∨ b = 45 ∨ b = 46)) ∧
    (decode_scheme_step uri = none →
      ∀ want, gedit_utils_decode_uri uri want = (false, no_components)) ∧
    (58 ∉ uri → ∀ want, gedit_utils_decode_uri uri want = (false, no_components)) ∧
    (∀ p, decode_scheme_step uri = some p →
      p = (before_first 58 uri).length + 1 ∧ uri.drop p = after_first 58 uri ∧
      ∀ want, gedit_utils_decode_uri uri want =
        decode_hier_part (after_first 58 uri)
          (if want.scheme = true then some ((before_first 58 uri).map g_ascii_tolower) else none)
          want) ∧
    (∀ want, (gedit_utils_decode_uri uri want).1 = true → want.scheme = true →
      (gedit_utils_decode_uri uri want).2.scheme =
          some ((before_first 58 uri).map g_ascii_tolower) ∧
        ((before_first 58 uri).map g_ascii_tolower).length = (before_first 58 uri).length ∧
        before_first 58 uri ≠ []) := by
  have hstep := decode_scheme_step_eq uri
  have hiff : (∀ b ∈ before_first 58 uri, is_valid_scheme_character b = true) ↔
      ∀ b ∈ before_first 58 uri,
        g_ascii_isalpha b = true ∨ g_ascii_isdigit b = true ∨ b = 43 ∨ b = 45 ∨ b = 46 :=
    forall₂_congr fun b _ => is_valid_scheme_character_iff b
  refine ⟨?_, ?_, ?_, ?_, ?_⟩
  · rw [hstep, ← hiff]
    split
    · rename_i hc; exact ⟨fun _ => hc, fun _ => ⟨_, rfl⟩⟩
    · rename_i hc
      exact ⟨fun ⟨p, hp⟩ => by simp at hp, fun h => absurd h hc⟩
  · intro hnone want
    unfold gedit_utils_decode_uri
    rw [hnone]
  · intro hno want
    rw [gedit_utils_decode_uri_eq, if_neg (fun h => hno h.2.1)]
  · intro p hp
    rw [hstep] at hp
    split at hp
    · rename_i hc
      have hp2 : (before_first 58 uri).length + 1 = p := by simpa using hp
      subst hp2
      refine ⟨rfl, drop_of_scheme_offset uri, fun want => ?_⟩
      rw [gedit_utils_decode_uri_eq, if_pos hc]
    · simp at hp
  · intro want hok hwant
    rw [gedit_utils_decode_uri_eq] at hok ⊢
    split at hok
    · rename_i hc
      rw [if_pos hc]
      refine ⟨?_, List.length_map _ _, before_first_ne_nil_of_alpha hc.1⟩
      rw [if_pos hwant]
      rw [decode_hier_part_scheme _ _ _ hok]
    · simp at hok

/-- C2: for a uri whose scheme step succeeds and whose remainder is `//rest`, let `A` be the
bytes of `rest` before its first `/` and `H` the bytes of `A` after its first `@` (all of `A`
when it has none).  The decode fails exactly when `A` has an `@`, the user is requested and the
bytes before that `@` cannot be unescaped.  When it succeeds, the user is the unescaped bytes
of `A` before the first `@` (absent without `@` or when not requested), the host is the raw
bytes of `H` before its first `:` (all of `H` without `:`), present whenever requested, and
the port is the raw bytes of `H` after that `:` (absent without `:`).  User, host and port
depend on `A` alone: any other uri with the same authority block gives the same three.  Port
and host may be empty: `http://host:` has the empty port, `http://:80` the empty host. -/
theorem decode_uri_authority_splitting (uri : List Nat) (want : Requested) (p : Nat)
    (rest A H : List Nat)
    (hscheme : decode_scheme_step uri = some p)
    (hrem : uri.drop p = 47 :: 47 :: rest)
    (hA : A = before_first 47 rest)
    (hH : H = if 64 ∈ A then after_first 64 A else A) :
    ((gedit_utils_decode_uri uri want).1 = false ↔
      (64 ∈ A ∧ want.user = true ∧ g_uri_unescape_segment none (before_first 64 A) = none)) ∧
    ((gedit_utils_decode_uri uri want).1 = true →
      (gedit_utils_decode_uri uri want).2.user =
        (if 64 ∈ A ∧ want.user = true then g_uri_unescape_segment none (before_first 64 A)
          else none) ∧
      (gedit_utils_decode_uri uri want).2.host =
        (if want.host = true then some (if 58 ∈ H then before_first 58 H else H) else none) ∧
      (gedit_utils_decode_uri uri want).2.port =
        (if 58 ∈ H ∧ want.port = true then some (after_first 58 H) else none) ∧
      (want.host = true → (gedit_utils_decode_uri uri want).2.host ≠ none)) ∧
    (∀ uri2 p2 rest2, decode_scheme_step uri2 = some p2 → uri2.drop p2 = 47 :: 47 :: rest2 →
      before_first 47 rest2 = A →
      (gedit_utils_decode_uri uri2 want).1 = (gedit_utils_decode_uri uri want).1 ∧
      (gedit_utils_decode_uri uri2 want).2.user = (gedit_utils_decode_uri uri want).2.user ∧
      (gedit_utils_decode_uri uri2 want).2.host = (gedit_utils_decode_uri uri want).2.host ∧
      (gedit_utils_decode_uri uri2 want).2.port = (gedit_utils_decode_uri uri want).2.port) ∧
    (gedit_utils_decode_uri (bytes "http://host:") all_requested).2.port = some [] ∧
    (gedit_utils_decode_uri (bytes "http://:80") all_requested).2.host = some [] := by
  have hH2 : H = host_port_part A := hH
  have hhost : (if 58 ∈ H then before_first 58 H else H) = before_first 58 H := by
    split
    · rfl
    · rename_i h; exact (before_first_of_not_mem h).symm
  subst hA
  refine ⟨?_, ?_, ?_, by decide, by decide⟩
  · rw [decode_uri_authority_eq hscheme hrem]
    split
    · rename_i hc; simpa using hc
    · rename_i hc; simpa using hc
  · intro hok
    rw [decode_uri_authority_eq hscheme hrem] at hok ⊢
    split at hok
    · simp at hok
    · rename_i hc
      rw [if_neg hc, hhost, hH2]
      refine ⟨rfl, rfl, rfl, ?_⟩
      intro hw
      simp [hw]
  · intro uri2 p2 rest2 h2 hrem2 hAeq
    rw [decode_uri_authority_eq hscheme hrem, decode_uri_authority_eq h2 hrem2, hAeq]
    split <;> simp

/-- Instance of C2 at `http://user:pw@host.com:8080/a/b` with every field requested. -/
theorem decode_uri_authority_splitting_witness :
    decode_scheme_step (bytes "http://user:pw@host.com:8080/a/b") = some 5 ∧
    (bytes "http://user:pw@host.com:8080/a/b").drop 5 =
      47 :: 47 :: bytes "user:pw@host.com:8080/a/b" ∧
    (gedit_utils_decode_uri (bytes "http://user:pw@host.com:8080/a/b") all_requested).2.user =
      some (bytes "user:pw") ∧
    (gedit_utils_decode_uri (bytes "http://user:pw@host.com:8080/a/b") all_requested).2.host =
      some (bytes "host.com") ∧
    (gedit_utils_decode_uri (bytes "http://user:pw@host.com:8080/a/b") all_requested).2.port =
      some (bytes "8080") := by
  have h := decode_uri_authority_splitting (bytes "http://user:pw@host.com:8080/a/b")
    all_requested 5 (bytes "user:pw@host.com:8080/a/b") (bytes "user:pw@host.com:8080")
    (bytes "host.com:8080") (by decide) (by decide) (by decide) (by decide)
  have h2 := h.2.1 (by decide)
  exact ⟨by decide, by decide, h2.1.trans (by decide), h2.2.1.trans (by decide),
    h2.2.2.1.trans (by decide)⟩

/-- C3: for a uri whose scheme step succeeds at offset `p`: when the remainder is `//rest`, a
successful decode gives as path the unescaping, with `/` as the byte that may not come out of
an escape, of `rest` from its first `/` on (the end of the authority block) to the end; when
the remainder does not begin with `//`, the decode succeeds with user, host and port absent
and the path the unescaping of the whole remainder.  The unescaping keeps the number of `/`
bytes (none is lost, none comes out of an escape) and is the identity on a span without `%`.
`mailto:foo@bar.com` gives scheme `mailto`, path `foo@bar.com` and nothing else; `mailto:`
gives the empty path, present. -/
theorem decode_uri_path_extraction (uri : List Nat) (want : Requested) (p : Nat)
    (hscheme : decode_scheme_step uri = some p) :
    (∀ rest, uri.drop p = 47 :: 47 :: rest → (gedit_utils_decode_uri uri want).1 = true →
      (gedit_utils_decode_uri uri want).2.path =
        if want.path = true then g_uri_unescape_segment (some [47]) (from_first 47 rest)
        else none) ∧
    ((¬ ∃ rest, uri.drop p = 47 :: 47 :: rest) →
      (gedit_utils_decode_uri uri want).1 = true ∧
      (gedit_utils_decode_uri uri want).2.user = none ∧
      (gedit_utils_decode_uri uri want).2.host = none ∧
      (gedit_utils_decode_uri uri want).2.port = none ∧
      (gedit_utils_decode_uri uri want).2.path =
        if want.path = true then g_uri_unescape_segment (some [47]) (uri.drop p) else none) ∧
    (∀ seg out, g_uri_unescape_segment (some [47]) seg = some out →
      out.count 47 = seg.count 47) ∧
    (∀ seg, 37 ∉ seg → g_uri_unescape_segment (some [47]) seg = some seg) ∧
    gedit_utils_decode_uri (bytes "mailto:foo@bar.com") all_requested =
      (true, ⟨some (bytes "mailto"), none, none, none, some (bytes "foo@bar.com")⟩) ∧
    gedit_utils_decode_uri (bytes "mailto:") all_requested =
      (true, ⟨some (bytes "mailto"), none, none, none, some []⟩) := by
  refine ⟨?_, ?_, ?_, ?_, by decide, by decide⟩
  · intro rest hrem hok
    rw [decode_uri_authority_eq hscheme hrem] at hok ⊢
    split at hok
    · simp at hok
    · rename_i hc; rw [if_neg hc]
  · intro hno
    have hn : ¬ ((uri.drop p).getD 0 0 = 47 ∧ (uri.drop p).getD 1 0 = 47) := by
      rcases hier_part_cases (uri.drop p) with ⟨rest, hr⟩ | hn
      · exact absurd ⟨rest, hr⟩ hno
      · exact hn
    rw [(decode_uri_of_scheme_step hscheme want).2, decode_hier_part_no_authority _ _ _ hn]
    exact ⟨rfl, rfl, rfl, rfl, rfl⟩
  · intro seg out h
    exact unescape_count_slash_aux seg.length seg out (Nat.le_refl _) h
  · intro seg h
    exact unescape_of_no_percent _ h

/-- Instance of C3 at `mailto:foo@bar.com`, whose remainder has no authority. -/
theorem decode_uri_path_extraction_witness :
    decode_scheme_step (bytes "mailto:foo@bar.com") = some 7 ∧
    (gedit_utils_decode_uri (bytes "mailto:foo@bar.com") all_requested).2.host = none ∧
    (gedit_utils_decode_uri (bytes "mailto:foo@bar.com") all_requested).2.path =
      some (bytes "foo@bar.com") := by
  have hno : ¬ ∃ rest, (bytes "mailto:foo@bar.com").drop 7 = 47 :: 47 :: rest := by
    rintro ⟨rest, hr⟩
    have h0 : ((bytes "mailto:foo@bar.com").drop 7).head? = some 47 := by rw [hr]; rfl
    exact absurd h0 (by decide)
  have h := (decode_uri_path_extraction (bytes "mailto:foo@bar.com") all_requested 7
    (by decide)).2.1 hno
  exact ⟨by decide, h.2.2.1, h.2.2.2.2.trans (by decide)⟩

/-- C4, what the code does on a failed userinfo unescape: when the scheme step succeeds, the
remainder is `//rest`, the authority block has an `@`, the bytes before its first `@` cannot be
unescaped and the user is requested, the decode returns `FALSE` with user, host, port and path
`NULL`.  The scheme out-parameter is `NULL` only when the scheme was not requested: when it was
requested, the pointer stored before `g_free (*scheme)` is still in it on return. -/
theorem decode_uri_bad_userinfo_fails (uri : List Nat) (want : Requested) (p : Nat)
    (rest : List Nat)
    (hscheme : decode_scheme_step uri = some p)
    (hrem : uri.drop p = 47 :: 47 :: rest)
    (hat : 64 ∈ before_first 47 rest)
    (hbad : g_uri_unescape_segment none (before_first 64 (before_first 47 rest)) = none)
    (huser : want.user = true) :
    (gedit_utils_decode_uri uri want).1 = false ∧
    (gedit_utils_decode_uri uri want).2.user = none ∧
    (gedit_utils_decode_uri uri want).2.host = none ∧
    (gedit_utils_decode_uri uri want).2.port = none ∧
    (gedit_utils_decode_uri uri want).2.path = none ∧
    (want.scheme = true → (gedit_utils_decode_uri uri want).2.scheme ≠ none) ∧
    (want.scheme = false → (gedit_utils_decode_uri uri want).2.scheme = none) := by
  rw [decode_uri_authority_eq hscheme hrem, if_pos ⟨hat, huser, hbad⟩]
  refine ⟨rfl, rfl, rfl, rfl, rfl, ?_, ?_⟩
  · intro hs; simp [hs]
  · intro hs; simp [hs]

/-- Instance of C4 at `http://%zz@host/` with every field requested: the call returns `FALSE`
and the scheme out-parameter is not `NULL`. -/
theorem decode_uri_bad_userinfo_fails_witness :
    decode_scheme_step (bytes "http://%zz@host/") = some 5 ∧
    g_uri_unescape_segment none (bytes "%zz") = none ∧
    (gedit_utils_decode_uri (bytes "http://%zz@host/") all_requested).1 = false ∧
    (gedit_utils_decode_uri (bytes "http://%zz@host/") all_requested).2.scheme ≠ none ∧
    (gedit_utils_decode_uri (bytes "http://%zz@host/") all_requested).2.path = none :=
  have h := decode_uri_bad_userinfo_fails (bytes "http://%zz@host/") all_requested 5
    (bytes "%zz@host/") (by decide) (by decide) (by decide) (by decide) (by decide)
  ⟨by decide, by decide, h.1, h.2.2.2.2.2.1 (by decide), h.2.2.2.2.1⟩

/-- C5, the code at the failing input `http://host/%zz` with every field requested: the path
cannot be unescaped, yet the function returns `TRUE`, with scheme and host filled in and the
requested path absent. -/
theorem decode_uri_bad_path_escape_succeeds :
    g_uri_unescape_segment (some [47]) (bytes "/%zz") = none ∧
    gedit_utils_decode_uri (bytes "http://host/%zz") all_requested =
      (true, ⟨some (bytes "http"), none, some (bytes "host"), none, none⟩) := by
  decide

/-- C6: `has_valid_scheme` is true exactly when the string has a non-empty prefix of letters,
digits, `+`, `-` and `.` immediately followed by `:`; equivalently when its first byte is a
valid scheme character and the maximal run of valid scheme characters is followed by `:`.  The
scan stops at an offset no larger than the length of the string, so it never reads past the
terminator.  `http:` and `1http:` are accepted, `:missing` and the empty string are not. -/
theorem has_valid_scheme_characterisation (uri : List Nat) :
    (has_valid_scheme uri = true ↔
      ∃ pre rest, pre ≠ [] ∧
        (∀ b ∈ pre,
          g_ascii_isalpha b = true ∨ g_ascii_isdigit b = true ∨ b = 43 ∨ b = 45 ∨ b = 46) ∧
        uri = pre ++ 58 :: rest) ∧
    (has_valid_scheme uri = true ↔
      is_valid_scheme_character (uri.getD 0 0) = true ∧
        uri.getD (uri.takeWhile is_valid_scheme_character).length 0 = 58) ∧
    has_valid_scheme_stop uri = (uri.takeWhile is_valid_scheme_character).length ∧
    has_valid_scheme_stop uri ≤ uri.length ∧
    has_valid_scheme (bytes "http:") = true ∧
    has_valid_scheme (bytes ":missing") = false ∧
    has_valid_scheme (bytes "1http:") = true ∧
    has_valid_scheme (bytes "") = false := by
  refine ⟨?_, ?_, has_valid_scheme_stop_eq uri, ?_, by decide, by decide, by decide, by decide⟩
  · rw [has_valid_scheme_iff_run]
    constructor
    · rintro ⟨pre, rest, h1, h2, h3⟩
      exact ⟨pre, rest, h1, fun b hb => (is_valid_scheme_character_iff b).1 (h2 b hb), h3⟩
    · rintro ⟨pre, rest, h1, h2, h3⟩
      exact ⟨pre, rest, h1, fun b hb => (is_valid_scheme_character_iff b).2 (h2 b hb), h3⟩
  · rw [has_valid_scheme_eq, getD_length_takeWhile]
    simp
  · rw [has_valid_scheme_stop_eq]
    exact (List.takeWhile_sublist _).length_le

/-- C7 as stated fails: the three bytes `a`, `:`, DEL (127) pass `has_valid_scheme` and the
location check although the last byte is not below 127. -/
theorem is_valid_location_accepts_del :
    gedit_utils_is_valid_location (some [97, 58, 127]) = true ∧
    ¬ (has_valid_scheme [97, 58, 127] = true ∧ ValidLocationBytes 127 [97, 58, 127]) := by
  refine ⟨by decide, ?_⟩
  rintro ⟨_, h⟩
  cases h with
  | escape c h l rest hc _ _ _ => omega
  | byte b rest _ _ _ h1 =>
    cases h1 with
    | byte b rest _ _ _ h2 =>
      cases h2 with
      | byte b rest _ _ hlt _ => omega

/-- C7, amended: `gedit_utils_is_valid_location` is true exactly when `has_valid_scheme` holds
and the string is a sequence of items, each either `%` followed by two hex digits or a byte
other than `%` with `33 ≤ b < 128` (so DEL, byte 127, is accepted).  A `NULL` location and
the empty string are invalid. -/
theorem is_valid_location_characterisation (s : List Nat) :
    (gedit_utils_is_valid_location (some s) = true ↔
      has_valid_scheme s = true ∧ ValidLocationBytes 128 s) ∧
    gedit_utils_is_valid_location none = false ∧
    gedit_utils_is_valid_location (some []) = false := by
  refine ⟨?_, rfl, by decide⟩
  rw [← location_scan_iff]
  unfold gedit_utils_is_valid_location
  cases hv : has_valid_scheme s <;> simp [hv]

/-- C8: for any conversion of a command-line argument to a URI, `gedit_utils_drop_get_uris`
returns exactly the canonical URIs of the non-empty entries that pass
`gedit_utils_is_valid_location`, in input order, as a sublist of the canonicalised input; the
result is no longer than the input, every element of it is a valid location, it is `NULL`
exactly when no entry passes, and it is never an empty list. -/
theorem drop_get_uris_order_preserving_filter (commandline_arg_uri : List Nat → List Nat)
    (uris : List (List Nat)) :
    gedit_utils_drop_get_uris commandline_arg_uri uris =
      (if valid_canonical_uris commandline_arg_uri uris = [] then none
        else some (valid_canonical_uris commandline_arg_uri uris)) ∧
    (valid_canonical_uris commandline_arg_uri uris).Sublist (uris.map commandline_arg_uri) ∧
    (∀ l, gedit_utils_drop_get_uris commandline_arg_uri uris = some l →
      l ≠ [] ∧ l.length ≤ uris.length ∧
      ∀ u ∈ l, gedit_utils_is_valid_location (some u) = true) ∧
    (gedit_utils_drop_get_uris commandline_arg_uri uris = none ↔
      ∀ e ∈ uris, e = [] ∨
        gedit_utils_is_valid_location (some (commandline_arg_uri e)) = false) := by
  have hsub := valid_canonical_uris_sublist commandline_arg_uri uris
  refine ⟨gedit_utils_drop_get_uris_eq _ _, hsub, ?_, ?_⟩
  · intro l hl
    rw [gedit_utils_drop_get_uris_eq] at hl
    split at hl
    · cases hl
    · rename_i hne
      cases hl
      refine ⟨hne, ?_, ?_⟩
      · simpa using hsub.length_le
      · intro u hu
        unfold valid_canonical_uris at hu
        exact (List.mem_filter.1 hu).2
  · rw [gedit_utils_drop_get_uris_eq, ← valid_canonical_uris_eq_nil_iff]
    split <;> simp_all

/-- C9 as stated fails at `a://u@h:1/p`: the decode succeeds, but the returned path is `/p`,
so putting a `/` between port and path gives `a://u@h:1//p`, not the input. -/
theorem decode_uri_reassembly_doubles_slash :
    gedit_utils_decode_uri (bytes "a://u@h:1/p") all_requested =
      (true, ⟨some (bytes "a"), some (bytes "u"), some (bytes "h"), some (bytes "1"),
        some (bytes "/p")⟩) ∧
    bytes "a" ++ bytes "://" ++ bytes "u" ++ bytes "@" ++ bytes "h" ++ bytes ":" ++ bytes "1" ++
      bytes "/" ++ bytes "/p" ≠ bytes "a://u@h:1/p" := by
  decide

/-- C9, amended: for a lower-case valid scheme, a user without `%`, `@` and `/`, a host
without `:` and `/`, a port without `/` and a path without `%`, decoding
`scheme://user@host:port/path` with every field requested succeeds with exactly these scheme,
user, host and port and with the path `/path`, leading slash included; so
scheme + `://` + user + `@` + host + `:` + port + returned path is the input again. -/
theorem decode_uri_round_trip (scheme user host port path : List Nat)
    (hs1 : g_ascii_isalpha (scheme.getD 0 0) = true)
    (hs2 : ∀ b ∈ scheme, is_valid_scheme_character b = true)
    (hs3 : scheme.map g_ascii_tolower = scheme)
    (hu1 : 37 ∉ user) (hu2 : 64 ∉ user) (hu3 : 47 ∉ user)
    (hh2 : 58 ∉ host) (hh3 : 47 ∉ host)
    (hp : 47 ∉ port) (hpath : 37 ∉ path) :
    gedit_utils_decode_uri
        (scheme ++ bytes "://" ++ user ++ bytes "@" ++ host ++ bytes ":" ++ port ++ bytes "/" ++
          path) all_requested =
      (true, ⟨some scheme, some user, some host, some port, some (bytes "/" ++ path)⟩) ∧
    scheme ++ bytes "://" ++ user ++ bytes "@" ++ host ++ bytes ":" ++ port ++
        (bytes "/" ++ path) =
      scheme ++ bytes "://" ++ user ++ bytes "@" ++ host ++ bytes ":" ++ port ++ bytes "/" ++
        path := by
  have b1 : bytes "://" = [58, 47, 47] := by decide
  have b2 : bytes "@" = [64] := by decide
  have b3 : bytes ":" = [58] := by decide
  have b4 : bytes "/" = [47] := by decide
  have hnorm : scheme ++ bytes "://" ++ user ++ bytes "@" ++ host ++ bytes ":" ++ port ++
      bytes "/" ++ path =
      scheme ++ 58 :: (47 :: 47 :: ((user ++ 64 :: (host ++ 58 :: port)) ++ 47 :: path)) := by
    rw [b1, b2, b3, b4]
    simp
  refine ⟨?_, by simp⟩
  have hcolon : 58 ∉ scheme := fun h => by
    have := hs2 58 h
    rw [not_valid_scheme_character_colon] at this
    cases this
  have hA : 47 ∉ user ++ 64 :: (host ++ 58 :: port) := by
    simp only [List.mem_append, List.mem_cons, not_or]
    exact ⟨hu3, by decide, hh3, by decide, hp⟩
  have hfirst : (scheme ++ 58 :: (47 :: 47 ::
      ((user ++ 64 :: (host ++ 58 :: port)) ++ 47 :: path))).getD 0 0 = scheme.getD 0 0 := by
    cases scheme with
    | nil => simp [g_ascii_isalpha] at hs1
    | cons c s => rfl
  rw [hnorm, gedit_utils_decode_uri_eq, before_first_append_cons hcolon,
    after_first_append_cons hcolon, hfirst,
    if_pos ⟨hs1, by simp, hs2⟩, decode_hier_part_authority, before_first_append_cons hA]
  have h64 : 64 ∈ user ++ 64 :: (host ++ 58 :: port) := by simp
  have hH : host_port_part (user ++ 64 :: (host ++ 58 :: port)) = host ++ 58 :: port := by
    unfold host_port_part
    rw [if_pos h64, after_first_append_cons hu2]
  have h58 : 58 ∈ host ++ 58 :: port := by simp
  have hpath2 : 37 ∉ 47 :: path := by
    simp only [List.mem_cons, not_or]
    exact ⟨by decide, hpath⟩
  rw [hH, before_first_append_cons hu2, before_first_append_cons hh2,
    after_first_append_cons hh2, unescape_of_no_percent none hu1, List.drop_left,
    unescape_of_no_percent _ hpath2, hs3, b4]
  simp [all_requested, h64, h58]

/-- Instance of C9 at `ftp://joe@example.org:21/pub/file.txt`. -/
theorem decode_uri_round_trip_witness :
    gedit_utils_decode_uri (bytes "ftp://joe@example.org:21/pub/file.txt") all_requested =
      (true, ⟨some (bytes "ftp"), some (bytes "joe"), some (bytes "example.org"),
        some (bytes "21"), some (bytes "/pub/file.txt")⟩) :=
  (decode_uri_round_trip (bytes "ftp") (bytes "joe") (bytes "example.org") (bytes "21")
    (bytes "pub/file.txt") (by decide) (by decide) (by decide) (by decide) (by decide)
    (by decide) (by decide) (by decide) (by decide) (by decide)).1

/-- C10 as stated fails: the path returned for `http://user:pw@host.com:8080/a/b` is not
`a/b`. -/
theorem decode_uri_example_path_not_relative :
    (gedit_utils_decode_uri (bytes "http://user:pw@host.com:8080/a/b") all_requested).2.path ≠
      some (bytes "a/b") := by
  decide

/-- C10, amended: `http://user:pw@host.com:8080/a/b` with every field requested decodes
successfully to scheme `http`, user `user:pw`, host `host.com`, port `8080` and path `/a/b`,
the path keeping its leading slash. -/
theorem decode_uri_worked_example :
    gedit_utils_decode_uri (bytes "http://user:pw@host.com:8080/a/b") all_requested =
      (true, ⟨some (bytes "http"), some (bytes "user:pw"), some (bytes "host.com"),
        some (bytes "8080"), some (bytes "/a/b")⟩) := by
  decide

/-! ## Lemmas for the soundness of the location check -/

theorem isxdigit_range {c : Nat} (h : g_ascii_isxdigit c = true) : 48 ≤ c ∧ c ≤ 102 := by
  simp only [g_ascii_isxdigit, g_ascii_isdigit, Bool.or_eq_true, Bool.and_eq_true,
    decide_eq_true_eq] at h
  omega

theorem valid_location_bytes_range {s : List Nat} (h : ValidLocationBytes 128 s) :
    ∀ b ∈ s, 32 < b ∧ b < 128 := by
  induction h with
  | nil => intro b hb; simp at hb
  | escape c h l rest hc hh hl _ ih =>
    intro b hb
    have r1 := isxdigit_range hh
    have r2 := isxdigit_range hl
    simp only [List.mem_cons] at hb
    rcases hb with e | e | e | e
    · omega
    · omega
    · omega
    · exact ih b e
  | byte b rest _ h1 h2 _ ih =>
    intro x hx
    rcases List.mem_cons.1 hx with e | e
    · omega
    · exact ih x e

theorem valid_location_bytes_percent {s : List Nat} (h : ValidLocationBytes 128 s) :
    ∀ i, s.getD i 0 = 37 →
      i + 2 < s.length ∧ g_ascii_isxdigit (s.getD (i + 1) 0) = true ∧
        g_ascii_isxdigit (s.getD (i + 2) 0) = true := by
  induction h with
  | nil => intro i hi; simp at hi
  | escape c h l rest hc hh hl _ ih =>
    intro i hi
    have r1 := isxdigit_range hh
    have r2 := isxdigit_range hl
    rcases i with _ | _ | _ | k
    · refine ⟨by simp, ?_, ?_⟩
      · simpa using hh
      · simpa using hl
    · simp only [List.getD_cons_succ, List.getD_cons_zero] at hi
      omega
    · simp only [List.getD_cons_succ, List.getD_cons_zero] at hi
      omega
    · simp only [List.getD_cons_succ] at hi
      have := ih k hi
      simp only [List.getD_cons_succ, List.length_cons]
      exact ⟨by omega, this.2.1, this.2.2⟩
  | byte b rest hb _ _ _ ih =>
    intro i hi
    rcases i with _ | k
    · simp only [List.getD_cons_zero] at hi
      exact absurd hi hb
    · simp only [List.getD_cons_succ] at hi
      have := ih k hi
      simp only [List.getD_cons_succ, List.length_cons]
      exact ⟨by omega, this.2.1, this.2.2⟩

theorem location_scan_stop_percent (h l : Nat) (rest : List Nat) (p : Nat) :
    location_scan_stop (37 :: h :: l :: rest) p =
      if g_ascii_isxdigit h = true then
        if g_ascii_isxdigit l = true then location_scan_stop rest (p + 3) else p + 2
      else p + 1 := by
  conv_lhs => unfold location_scan_stop
  cases hh : g_ascii_isxdigit h <;> cases hl : g_ascii_isxdigit l <;> simp [hh, hl]

theorem location_scan_stop_byte {c : Nat} (hc : c ≠ 37) (rest : List Nat) (p : Nat) :
    location_scan_stop (c :: rest) p =
      if c ≤ 32 ∨ c ≥ 128 then p else location_scan_stop rest (p + 1) := by
  conv_lhs => unfold location_scan_stop
  simp [hc]

theorem location_scan_stop_le_aux (n : Nat) :
    ∀ (s : List Nat) (p : Nat), s.length ≤ n → location_scan_stop s p ≤ p + s.length := by
  induction n with
  | zero =>
    intro s p hlen
    have : s = [] := List.length_eq_zero.1 (Nat.le_zero.1 hlen)
    subst this
    simp [location_scan_stop]
  | succ n ih =>
    intro s p hlen
    rcases s with _ | ⟨c, rest⟩
    · simp [location_scan_stop]
    · by_cases hc : c = 37
      · subst hc
        rcases rest with _ | ⟨a, _ | ⟨b, r⟩⟩
        · simp [location_scan_stop]
        · unfold location_scan_stop
          cases ha : g_ascii_isxdigit a <;> simp [ha]
        · rw [location_scan_stop_percent]
          have hlen2 : r.length ≤ n := by simp at hlen; omega
          have := ih r (p + 3) hlen2
          simp only [List.length_cons]
          split
          · split
            · omega
            · omega
          · omega
      · rw [location_scan_stop_byte hc]
        have hlen2 : rest.length ≤ n := by simpa using hlen
        have := ih rest (p + 1) hlen2
        simp only [List.length_cons]
        split
        · omega
        · omega

theorem location_scan_stop_of_valid {s : List Nat} (h : ValidLocationBytes 128 s) :
    ∀ p, location_scan_stop s p = p + s.length := by
  induction h with
  | nil => intro p; simp [location_scan_stop]
  | escape c h l rest hc hh hl _ ih =>
    intro p
    subst hc
    rw [location_scan_stop_percent, if_pos hh, if_pos hl, ih]
    simp only [List.length_cons]
    omega
  | byte b rest hb h1 h2 _ ih =>
    intro p
    rw [location_scan_stop_byte hb, if_neg (by omega), ih]
    simp only [List.length_cons]
    omega

theorem location_scan_of_is_valid_location {s : List Nat}
    (h : gedit_utils_is_valid_location (some s) = true) :
    has_valid_scheme s = true ∧ location_scan s = true := by
  unfold gedit_utils_is_valid_location at h
  cases hv : has_valid_scheme s
  · simp [hv] at h
  · simpa [hv] using h

/-- C11: when `gedit_utils_is_valid_location` returns true for the URI `s`, every byte of `s`
is above 32 and below 128, and every `%` in `s`, at whatever offset, has two more bytes after it
inside `s`, both hex digits, so a `%` in the last or second-to-last position makes `s` invalid;
the scan then stops exactly at the terminator.  On every `s`, valid or not, the last byte the
scan reads is at an offset no larger than the length of `s`, the offset of the terminator.
`file:///tmp/a file.txt` and `http://ex.com/%zz` are invalid, `file:///tmp/a%20file.txt` is
valid. -/
theorem is_valid_location_sound (s : List Nat) :
    (gedit_utils_is_valid_location (some s) = true →
      (∀ b ∈ s, 32 < b ∧ b < 128) ∧
      (∀ i, s.getD i 0 = 37 →
        i + 2 < s.length ∧ g_ascii_isxdigit (s.getD (i + 1) 0) = true ∧
          g_ascii_isxdigit (s.getD (i + 2) 0) = true) ∧
      s.getD (s.length - 1) 0 ≠ 37 ∧ s.getD (s.length - 2) 0 ≠ 37 ∧
      location_scan_stop s 0 = s.length) ∧
    location_scan_stop s 0 ≤ s.length ∧
    gedit_utils_is_valid_location (some (bytes "file:///tmp/a file.txt")) = false ∧
    gedit_utils_is_valid_location (some (bytes "file:///tmp/a%20file.txt")) = true ∧
    gedit_utils_is_valid_location (some (bytes "http://ex.com/%zz")) = false := by
  refine ⟨?_, ?_, by decide, by decide, by decide⟩
  · intro h
    have hv : ValidLocationBytes 128 s :=
      (location_scan_iff s).1 (location_scan_of_is_valid_location h).2
    have hp := valid_location_bytes_percent hv
    refine ⟨valid_location_bytes_range hv, hp, ?_, ?_, ?_⟩
    · intro e
      have := (hp _ e).1
      omega
    · intro e
      have := (hp _ e).1
      omega
    · simpa using location_scan_stop_of_valid hv 0
  · simpa using location_scan_stop_le_aux s.length s 0 (Nat.le_refl _)

/-- C12: the scheme step of `gedit_utils_decode_uri` succeeds exactly when `has_valid_scheme`
is true and the first byte is an ASCII letter.  So every uri that the decode accepts passes
`has_valid_scheme`; the converse fails at `1http:`, which `has_valid_scheme` accepts and the
decode rejects whatever fields are requested. -/
theorem decode_scheme_step_iff_has_valid_scheme (uri : List Nat) :
    ((∃ p, decode_scheme_step uri = some p) ↔
      (has_valid_scheme uri = true ∧ g_ascii_isalpha (uri.getD 0 0) = true)) ∧
    (∀ want, (gedit_utils_decode_uri uri want).1 = true → has_valid_scheme uri = true) ∧
    has_valid_scheme (bytes "1http:") = true ∧
    decode_scheme_step (bytes "1http:") = none ∧
    (∀ want, gedit_utils_decode_uri (bytes "1http:") want = (false, no_components)) := by
  have key : (g_ascii_isalpha (uri.getD 0 0) = true ∧ 58 ∈ uri ∧
      ∀ b ∈ before_first 58 uri, is_valid_scheme_character b = true) ↔
      (has_valid_scheme uri = true ∧ g_ascii_isalpha (uri.getD 0 0) = true) := by
    rw [has_valid_scheme_iff_run]
    constructor
    · rintro ⟨ha, hmem, hall⟩
      exact ⟨⟨before_first 58 uri, after_first 58 uri, before_first_ne_nil_of_alpha ha, hall,
        split_at_first hmem⟩, ha⟩
    · rintro ⟨⟨pre, rest, _, hall, huri⟩, ha⟩
      have hcolon : 58 ∉ pre := fun h => by
        have := hall 58 h
        rw [not_valid_scheme_character_colon] at this
        cases this
      refine ⟨ha, ?_, ?_⟩
      · rw [huri]; simp
      · rw [huri, before_first_append_cons hcolon]; exact hall
  refine ⟨?_, ?_, by decide, by decide, ?_⟩
  · rw [decode_scheme_step_eq, ← key]
    split
    · rename_i hc; exact ⟨fun _ => hc, fun _ => ⟨_, rfl⟩⟩
    · rename_i hc
      exact ⟨fun ⟨p, hp⟩ => by simp at hp, fun h => absurd h hc⟩
  · intro want hok
    rw [gedit_utils_decode_uri_eq] at hok
    split at hok
    · rename_i hc; exact (key.1 hc).1
    · simp at hok
  · intro want
    unfold gedit_utils_decode_uri
    rw [show decode_scheme_step (bytes "1http:") = none by decide]

end GeditUtils
